import Mathlib

/-!
Verification of dev/make_requirements.py.

The script has four parts, all embedded below:
* parse_requirements: scans a requirements file line by line into an ordered
  mapping from package-identifier line to its full text block;
* write_requirements: renders a header line, -r include lines for the parents,
  a blank separator line, and the concatenated entry blocks;
* deduplicate_requirements: the five-step rewrite of base / production /
  development / testing / all;
* run_uv_commands and main: the fixed external command sequence with
  fail-fast semantics.

Modelling conventions: a file is a List String of its lines exactly as Python
file iteration yields them (each line carries its trailing newline, so a line
is never the empty string for a real file; hypotheses of the form
"every line is nonempty" encode this).  The ordered dict is an association
list in insertion order.  Python str.strip is modelled over the ASCII
whitespace characters, str.startswith by list-prefix on characters.
-/

set_option autoImplicit false

namespace MakeRequirements

/-- ASCII whitespace as stripped by Python str.strip. -/
def isPySpace (c : Char) : Bool :=
  c = ' ' || c = '\t' || c = '\n' || c = '\r' || c = '\x0b' || c = '\x0c'

/-- Python line.strip(): remove leading and trailing whitespace. -/
def pyStrip (s : String) : String :=
  String.mk (((s.toList.dropWhile isPySpace).reverse.dropWhile isPySpace).reverse)

/-- Python s.startswith(p), as character-list prefix. -/
def strStarts (s p : String) : Bool :=
  p.toList.isPrefixOf s.toList

/-- The condition under which parse_requirements skips a line while no
current package is set: not line.strip() or line.strip().startswith("#"). -/
def skippableB (l : String) : Bool :=
  pyStrip l == "" || strStarts (pyStrip l) "#"

/-- The ordered mapping built by parse_requirements: package identifier line
to list of block lines, in insertion order. -/
abbrev Entries : Type := List (String × List String)

/-- Block of lines stored under key k ([] when the key is absent). -/
def lookupD : Entries → String → List String
  | [], _ => []
  | (k', b) :: m, k => if k' = k then b else lookupD m k

/-- Python: k in packages. -/
def hasKey : Entries → String → Bool
  | [], _ => false
  | (k', _) :: m, k => k' = k || hasKey m k

/-- Python: packages[k].append(l) on a defaultdict(list): append to the block
in place if the key exists, otherwise add a new entry at the end. -/
def addLine : Entries → String → String → Entries
  | [], k, l => [(k, [l])]
  | (k', b) :: m, k, l =>
    if k' = k then (k', b ++ [l]) :: m else (k', b) :: addLine m k l

instance exceptDecEq {ε α : Type} [DecidableEq ε] [DecidableEq α] :
    DecidableEq (Except ε α)
  | .ok a, .ok b =>
    if h : a = b then .isTrue (by rw [h])
    else .isFalse (fun hh => by cases hh; exact h rfl)
  | .ok _, .error _ => .isFalse (fun h => by cases h)
  | .error _, .ok _ => .isFalse (fun h => by cases h)
  | .error a, .error b =>
    if h : a = b then .isTrue (by rw [h])
    else .isFalse (fun hh => by cases hh; exact h rfl)

/-- Message of the ValueError raised on indentation before any identifier. -/
def errMsg : String := "Unexpected indentation in requirements file"

/-- The loop body of parse_requirements.  cur is current_package, with ""
standing for Python None (both are falsy, and a real file line is never
empty, so the two falsy values behave identically). -/
def parseLoop : List String → String → Entries → Except String Entries
  | [], _, acc => .ok acc
  | l :: rest, cur, acc =>
    if cur = "" ∧ skippableB l then
      parseLoop rest cur acc
    else if strStarts l " " then
      if cur = "" then .error errMsg
      else parseLoop rest cur (addLine acc cur l)
    else
      parseLoop rest l (addLine acc l l)

/-- parse_requirements(file_path) on the file's list of lines. -/
def parse_requirements (f : List String) : Except String Entries :=
  parseLoop f "" []

example :
    parse_requirements ["# c\n", "\n", "foo==1.0\n", "    --hash=abc\n", "bar==2.0\n"]
      = .ok [("foo==1.0\n", ["foo==1.0\n", "    --hash=abc\n"]), ("bar==2.0\n", ["bar==2.0\n"])] := by
  decide

example : parse_requirements ["    --hash=abc\n"] = .error errMsg := by
  decide

example :
    parse_requirements ["a\n", "\n", "a\n"]
      = .ok [("a\n", ["a\n", "a\n"]), ("\n", ["\n"])] := by
  decide

/-! ### Paths and write_requirements -/

/-- SCRIPT.relative_to(PROJECT_ROOT): the script lives at
dev/make_requirements.py under the project root. -/
def SCRIPT_REL : String := "dev/make_requirements.py"

/-- The autogeneration header line emitted by write_requirements. -/
def headerLine : String :=
  "# This file was autogenerated via " ++ SCRIPT_REL ++ "\n"

/-- Paths are component lists relative to the project root. -/
def REQUIREMENTS_DIR : List String := ["cvat", "requirements"]

def BASE_REQUIREMENTS : List String := REQUIREMENTS_DIR ++ ["base.txt"]

def PRODUCTION_REQUIREMENTS : List String := REQUIREMENTS_DIR ++ ["production.txt"]

def DEVELOPMENT_REQUIREMENTS : List String := REQUIREMENTS_DIR ++ ["development.txt"]

def ALL_REQUIREMENTS : List String := REQUIREMENTS_DIR ++ ["all.txt"]

def TESTING_REQUIREMENTS : List String := REQUIREMENTS_DIR ++ ["testing.txt"]

/-- Render a path as Python str() of a relative PosixPath. -/
def pathStr (p : List String) : String := String.intercalate "/" p

/-- Path.relative_to: strip the directory prefix, None if not a subpath
(where Python raises ValueError). -/
def relativeTo (p d : List String) : Option (List String) :=
  if d.isPrefixOf p then some (p.drop d.length) else none

/-- relative_to applied to every parent in order; the first failure is the
ValueError Python would raise while building the content. -/
def relAll : List (List String) → List String → Except String (List (List String))
  | [], _ => .ok []
  | p :: ps, d =>
    match relativeTo p d with
    | none => .error "path is not relative"
    | some r =>
      match relAll ps d with
      | .error e => .error e
      | .ok rs => .ok (r :: rs)

/-- All entry blocks concatenated in mapping (insertion) order:
line for package_lines in packages.values() for line in package_lines. -/
def joinBlocks (m : Entries) : List String :=
  (List.map Prod.snd m).flatten

/-- The lines of the content string built by write_requirements: header,
one -r line per parent, a blank line, then the blocks. -/
def writeLines (rels : List (List String)) (m : Entries) : List String :=
  headerLine :: (rels.map (fun r => "-r " ++ pathStr r ++ "\n") ++ "\n" :: joinBlocks m)

/-- write_requirements(output_path, packages, *parents): the content written
to output_path, as its list of lines. -/
def write_requirements (output_path : List String) (packages : Entries)
    (parents : List (List String)) : Except String (List String) :=
  match relAll parents (output_path.dropLast) with
  | .error e => .error e
  | .ok rels => .ok (writeLines rels packages)

/-! ### deduplicate_requirements -/

/-- The five on-disk requirement files. -/
structure ReqFiles where
  base : List String
  production : List String
  development : List String
  testing : List String
  all : List String
  deriving DecidableEq

/-- prod_unique and dev_unique: {k: v for k, v in parsed.items()
if k not in base_packages}. -/
def filterNotIn (m base : Entries) : Entries :=
  List.filter (fun e => !(hasKey base e.1)) m

/-- test_unique: {k: v for k, v in parsed.items() if k not in base_packages
and k not in dev_packages}. -/
def filterTesting (m base dev : Entries) : Entries :=
  List.filter (fun e => !(hasKey base e.1) && !(hasKey dev e.1)) m

/-- deduplicate_requirements(): reads and rewrites the five files in order,
stopping at the first raised error.  The returned ReqFiles is the on-disk
state when the function returns or raises, so files written before a failing
step stay rewritten and later files keep their input content. -/
def deduplicate_requirements (fs : ReqFiles) : ReqFiles × Option String :=
  match parse_requirements fs.base with
  | .error e => (fs, some e)
  | .ok base_packages =>
    match write_requirements BASE_REQUIREMENTS base_packages [] with
    | .error e => (fs, some e)
    | .ok baseOut =>
      let fs1 := { fs with base := baseOut }
      match parse_requirements fs1.production with
      | .error e => (fs1, some e)
      | .ok prodParsed =>
        let prod_unique := filterNotIn prodParsed base_packages
        match write_requirements PRODUCTION_REQUIREMENTS prod_unique [BASE_REQUIREMENTS] with
        | .error e => (fs1, some e)
        | .ok prodOut =>
          let fs2 := { fs1 with production := prodOut }
          match parse_requirements fs2.development with
          | .error e => (fs2, some e)
          | .ok dev_packages =>
            let dev_unique := filterNotIn dev_packages base_packages
            match write_requirements DEVELOPMENT_REQUIREMENTS dev_unique [BASE_REQUIREMENTS] with
            | .error e => (fs2, some e)
            | .ok devOut =>
              let fs3 := { fs2 with development := devOut }
              match parse_requirements fs3.testing with
              | .error e => (fs3, some e)
              | .ok testParsed =>
                let test_unique := filterTesting testParsed base_packages dev_packages
                match write_requirements TESTING_REQUIREMENTS test_unique [DEVELOPMENT_REQUIREMENTS] with
                | .error e => (fs3, some e)
                | .ok testOut =>
                  let fs4 := { fs3 with testing := testOut }
                  match write_requirements ALL_REQUIREMENTS []
                      [DEVELOPMENT_REQUIREMENTS, PRODUCTION_REQUIREMENTS, TESTING_REQUIREMENTS] with
                  | .error e => (fs4, some e)
                  | .ok allOut => ({ fs4 with all := allOut }, none)

/-! ### run_uv_commands and main -/

/-- The fixed command table of run_uv_commands.  absRoot abstracts the
environment-dependent absolute prefix that Path.absolute() puts in front of
the requirement file paths; it plays no role in any claim. -/
def commands (absRoot : String) : List (List String) :=
  [ ["uv", "lock"],
    ["uv", "pip", "compile", "pyproject.toml",
      "-o", absRoot ++ pathStr BASE_REQUIREMENTS],
    ["uv", "pip", "compile", "pyproject.toml", "--extra", "production",
      "-o", absRoot ++ pathStr PRODUCTION_REQUIREMENTS],
    ["uv", "pip", "compile", "pyproject.toml", "--extra", "development",
      "-o", absRoot ++ pathStr DEVELOPMENT_REQUIREMENTS],
    ["uv", "pip", "compile", "pyproject.toml", "--extra", "testing",
      "-o", absRoot ++ pathStr TESTING_REQUIREMENTS],
    ["uv", "pip", "compile", "pyproject.toml", "--all-extras",
      "-o", absRoot ++ pathStr ALL_REQUIREMENTS] ]

/-- The for-loop of run_uv_commands over subprocess.run(cmd, check=True):
ex gives each command's exit status; returns the list of commands actually
executed, in order, and the failing command if one returned nonzero
(the CalledProcessError that check=True raises). -/
def runSeq (ex : List String → Int) : List (List String) → List (List String) × Option (List String)
  | [] => ([], none)
  | c :: cs =>
    if ex c = 0 then
      let r := runSeq ex cs
      (c :: r.1, r.2)
    else ([c], some c)

/-- main(): run_uv_commands() then deduplicate_requirements().  Returns the
commands executed and, if run_uv_commands raised, none in the second
component: the deduplication pass was never started. -/
def main (ex : List String → Int) (absRoot : String) (fs : ReqFiles) :
    List (List String) × Option (ReqFiles × Option String) :=
  let r := runSeq ex (commands absRoot)
  match r.2 with
  | some _ => (r.1, none)
  | none => (r.1, some (deduplicate_requirements fs))

example :
    deduplicate_requirements
      ⟨["foo==1.0\n"], ["foo==1.0\n", "bar==2.0\n"], ["baz==3.0\n"], ["qux==4.0\n"], []⟩
    = (⟨[headerLine, "\n", "foo==1.0\n"],
        [headerLine, "-r base.txt\n", "\n", "bar==2.0\n"],
        [headerLine, "-r base.txt\n", "\n", "baz==3.0\n"],
        [headerLine, "-r development.txt\n", "\n", "qux==4.0\n"],
        [headerLine, "-r development.txt\n", "-r production.txt\n", "-r testing.txt\n", "\n"]⟩,
       none) := by
  decide

/-! ### Specification-side views of the scan (transcribed from the claims,
to be compared with parse_requirements): the lines a scan attributes to one
key, the number of identifier occurrences of that key, the final value of
current_package, and the first content line. -/

/-- The block the scan attributes to key k starting in state cur: each
occurrence of k as an identifier line contributes the line itself, and each
indented line seen while k is current is appended.  This transcribes the
claim wording "the concatenation of all occurrences' lines, with the
identifier line itself appearing once per occurrence". -/
def blockOf (k : String) : List String → String → List String
  | [], _ => []
  | l :: rest, cur =>
    if cur = "" ∧ skippableB l then blockOf k rest cur
    else if strStarts l " " then
      if cur = k then l :: blockOf k rest cur else blockOf k rest cur
    else
      if l = k then l :: blockOf k rest l else blockOf k rest l

/-- Number of identifier-line occurrences of k in the scan from state cur. -/
def idOcc (k : String) : List String → String → Nat
  | [], _ => 0
  | l :: rest, cur =>
    if cur = "" ∧ skippableB l then idOcc k rest cur
    else if strStarts l " " then idOcc k rest cur
    else (if l = k then 1 else 0) + idOcc k rest l

/-- Value of current_package after scanning the given lines from state cur
(unchanged on the error path, which aborts anyway). -/
def curAfter : List String → String → String
  | [], cur => cur
  | l :: rest, cur =>
    if cur = "" ∧ skippableB l then curAfter rest cur
    else if strStarts l " " then curAfter rest cur
    else curAfter rest l

/-- The first line of a file that the parser does not skip (blank and
comment lines are skipped only before the first identifier). -/
def firstContent (f : List String) : Option String :=
  (f.dropWhile skippableB).head?

/-! ### Well-formedness shapes for parse results -/

/-- Shape of one entry of a parse result: a nonempty, non-indented key, a
nonempty block headed by the key, every block line either the key itself or
indented, and no empty block lines. -/
def wfEntry (p : String × List String) : Prop :=
  p.1 ≠ "" ∧ strStarts p.1 " " = false ∧ p.2 ≠ [] ∧ p.2.head? = some p.1 ∧
    (∀ l ∈ p.2, l = p.1 ∨ strStarts l " " = true) ∧ (∀ l ∈ p.2, l ≠ "")

/-- Shape of a full parse result: well-formed entries, distinct keys, and a
first key that is a content line (neither blank nor a comment). -/
def wfEntries (m : Entries) : Prop :=
  (∀ p ∈ m, wfEntry p) ∧ (m.map Prod.fst).Nodup ∧
    (∀ p, m.head? = some p → skippableB p.1 = false)

/-! ### Concrete inputs used by witnesses and counterexamples -/

/-- A starting set of generated files: base pins foo, production repeats foo
and adds bar, development adds baz, testing adds qux. -/
def exFiles : ReqFiles :=
  ⟨["foo==1.0\n"], ["foo==1.0\n", "bar==2.0\n"], ["baz==3.0\n"], ["qux==4.0\n"], []⟩

def exB : Entries := [("foo==1.0\n", ["foo==1.0\n"])]

def exP : Entries := [("foo==1.0\n", ["foo==1.0\n"]), ("bar==2.0\n", ["bar==2.0\n"])]

def exD : Entries := [("baz==3.0\n", ["baz==3.0\n"])]

def exT : Entries := [("qux==4.0\n", ["qux==4.0\n"])]

/-- A content line whose leading whitespace is a tab, not a space. -/
def tabLine : String := "\t--hash=sha256:abc\n"

/-- The five files exFiles deduplicates to. -/
def exOut : ReqFiles :=
  ⟨[headerLine, "\n", "foo==1.0\n"],
   [headerLine, "-r base.txt\n", "\n", "bar==2.0\n"],
   [headerLine, "-r base.txt\n", "\n", "baz==3.0\n"],
   [headerLine, "-r development.txt\n", "\n", "qux==4.0\n"],
   [headerLine, "-r development.txt\n", "-r production.txt\n", "-r testing.txt\n", "\n"]⟩

/-- An exit-status assignment under which the very first command fails. -/
def exFailing : List String → Int :=
  fun cmd => if cmd = ["uv", "lock"] then 1 else 0

/-- A file set whose base is fine but whose production file starts with an
indented line. -/
def exBadProd : ReqFiles :=
  ⟨["foo==1.0\n"], ["    --hash=abc\n"], [], [], []⟩

/-! ### Lemma layer -/

/-! ### Association list lemmas -/

theorem lookupD_addLine (m : Entries) (k l j : String) :
    lookupD (addLine m k l) j = if k = j then lookupD m j ++ [l] else lookupD m j := by
  induction m with
  | nil =>
    by_cases h : k = j <;> simp [addLine, lookupD, h]
  | cons e m ih =>
    obtain ⟨k', b⟩ := e
    by_cases h1 : k' = k
    · subst h1
      by_cases h2 : k' = j
      · subst h2; simp [addLine, lookupD]
      · simp [addLine, lookupD, h2]
    · by_cases h2 : k' = j
      · subst h2
        have hkj : ¬ k = k' := fun h => h1 h.symm
        simp [addLine, lookupD, h1, hkj]
      · simp [addLine, lookupD, h1, h2, ih]

theorem hasKey_addLine (m : Entries) (k l j : String) :
    hasKey (addLine m k l) j = (hasKey m j || decide (k = j)) := by
  induction m with
  | nil => simp [addLine, hasKey, eq_comm]
  | cons e m ih =>
    obtain ⟨k', b⟩ := e
    by_cases h1 : k' = k
    · subst h1
      by_cases h2 : k' = j <;> simp [addLine, hasKey, h2, eq_comm]
    · simp [addLine, hasKey, h1, ih, Bool.or_assoc]

theorem keys_addLine (m : Entries) (k l : String) :
    (addLine m k l).map Prod.fst
      = if hasKey m k then m.map Prod.fst else m.map Prod.fst ++ [k] := by
  induction m with
  | nil => simp [addLine, hasKey]
  | cons e m ih =>
    obtain ⟨k', b⟩ := e
    by_cases h1 : k' = k
    · subst h1; simp [addLine, hasKey]
    · simp [addLine, hasKey, h1, ih]
      by_cases h2 : hasKey m k = true <;> simp [h2]

theorem lookupD_eq_nil (m : Entries) (k : String) (h : hasKey m k = false) :
    lookupD m k = [] := by
  induction m with
  | nil => rfl
  | cons e m ih =>
    obtain ⟨k', b⟩ := e
    simp [hasKey] at h
    simp [lookupD, h.1, ih h.2]

theorem hasKey_of_lookupD_ne (m : Entries) (k : String) (h : lookupD m k ≠ []) :
    hasKey m k = true := by
  by_cases hk : hasKey m k = true
  · exact hk
  · exact absurd (lookupD_eq_nil m k (by simpa using hk)) h

theorem mem_of_hasKey (m : Entries) (k : String) (h : hasKey m k = true) :
    (k, lookupD m k) ∈ m := by
  induction m with
  | nil => simp [hasKey] at h
  | cons e m ih =>
    obtain ⟨k', b⟩ := e
    by_cases h1 : k' = k
    · subst h1; simp [lookupD]
    · simp [hasKey, h1] at h
      simp [lookupD, h1]
      exact Or.inr (ih h)

theorem lookupD_of_mem_nodup (m : Entries) (k : String) (b : List String)
    (hn : (m.map Prod.fst).Nodup) (h : (k, b) ∈ m) : lookupD m k = b := by
  induction m with
  | nil => simp at h
  | cons e m ih =>
    obtain ⟨k', b'⟩ := e
    rw [List.map_cons, List.nodup_cons] at hn
    rcases List.mem_cons.mp h with h1 | h1
    · injection h1 with h1a h1b
      subst h1a; subst h1b
      simp [lookupD]
    · have hk : k' ≠ k := by
        intro he
        exact hn.1 (by rw [he]; exact List.mem_map.mpr ⟨(k, b), h1, rfl⟩)
      simp [lookupD, hk]
      exact ih hn.2 h1

theorem hasKey_iff_mem_keys (m : Entries) (k : String) :
    hasKey m k = true ↔ k ∈ m.map Prod.fst := by
  induction m with
  | nil => simp [hasKey]
  | cons e m ih =>
    obtain ⟨k', b⟩ := e
    simp only [hasKey, Bool.or_eq_true, decide_eq_true_eq, List.map_cons,
      List.mem_cons, ih]
    constructor
    · rintro (h | h)
      · exact Or.inl h.symm
      · exact Or.inr h
    · rintro (h | h)
      · exact Or.inl h.symm
      · exact Or.inr h

/-! ### Parse loop step lemmas -/

theorem parseLoop_skip {l : String} (rest : List String) (acc : Entries)
    (h : skippableB l = true) :
    parseLoop (l :: rest) "" acc = parseLoop rest "" acc := by
  simp [parseLoop, h]

theorem parseLoop_space {l cur : String} (rest : List String) (acc : Entries)
    (hcur : cur ≠ "") (h : strStarts l " " = true) :
    parseLoop (l :: rest) cur acc = parseLoop rest cur (addLine acc cur l) := by
  simp [parseLoop, h, hcur]

theorem parseLoop_space_err {l : String} (rest : List String) (acc : Entries)
    (hns : skippableB l = false) (h : strStarts l " " = true) :
    parseLoop (l :: rest) "" acc = .error errMsg := by
  simp [parseLoop, h, hns]

theorem parseLoop_key {l cur : String} (rest : List String) (acc : Entries)
    (hskip : ¬(cur = "" ∧ skippableB l = true)) (h : strStarts l " " = false) :
    parseLoop (l :: rest) cur acc = parseLoop rest l (addLine acc l l) := by
  simp [parseLoop, h, hskip]

/-- Each key's block in a successful scan is exactly what blockOf attributes
to it, appended to whatever the accumulator already holds. -/
theorem parseLoop_lookup (ls : List String) :
    ∀ (cur : String) (acc m : Entries), parseLoop ls cur acc = .ok m →
      ∀ k, lookupD m k = lookupD acc k ++ blockOf k ls cur := by
  induction ls with
  | nil =>
    intro cur acc m h k
    simp [parseLoop] at h
    subst h
    simp [blockOf]
  | cons l rest ih =>
    intro cur acc m h k
    by_cases hskip : cur = "" ∧ skippableB l = true
    · obtain ⟨hc, hs⟩ := hskip
      subst hc
      rw [parseLoop_skip rest acc hs] at h
      simp only [blockOf, hs, and_self, if_pos trivial, eq_self_iff_true, true_and, if_true]
      simpa [blockOf, hs] using ih "" acc m h k
    · by_cases hsp : strStarts l " " = true
      · by_cases hcur : cur = ""
        · subst hcur
          have hns : skippableB l = false := by
            rcases Bool.eq_false_or_eq_true (skippableB l) with ht | hf
            · exact absurd ⟨rfl, ht⟩ hskip
            · exact hf
          rw [parseLoop_space_err rest acc hns hsp] at h
          cases h
        · rw [parseLoop_space rest acc hcur hsp] at h
          have hrec := ih cur (addLine acc cur l) m h k
          rw [hrec, lookupD_addLine]
          simp only [blockOf, if_neg hskip, hsp, if_true]
          by_cases hck : cur = k
          · subst hck
            simp
          · simp [hck]
      · have hspf : strStarts l " " = false := by
          rcases Bool.eq_false_or_eq_true (strStarts l " ") with ht | hf
          · exact absurd ht hsp
          · exact hf
        rw [parseLoop_key rest acc hskip hspf] at h
        have hrec := ih l (addLine acc l l) m h k
        rw [hrec, lookupD_addLine]
        simp only [blockOf, if_neg hskip, hspf, Bool.false_eq_true, if_false]
        by_cases hlk : l = k
        · subst hlk
          simp
        · simp [hlk]

/-- Scanning a concatenation: scan the prefix, then continue from its final
state.  Errors in the prefix propagate. -/
theorem parseLoop_append (xs ys : List String) :
    ∀ (cur : String) (acc : Entries),
      parseLoop (xs ++ ys) cur acc =
        Except.bind (parseLoop xs cur acc)
          (fun acc2 => parseLoop ys (curAfter xs cur) acc2) := by
  induction xs with
  | nil =>
    intro cur acc
    simp [parseLoop, curAfter, Except.bind]
  | cons l xs ih =>
    intro cur acc
    by_cases hskip : cur = "" ∧ skippableB l = true
    · simp only [List.cons_append, parseLoop, curAfter, if_pos hskip]
      exact ih cur acc
    · by_cases hsp : strStarts l " " = true
      · by_cases hcur : cur = ""
        · simp only [List.cons_append, parseLoop, curAfter, if_neg hskip, hsp,
            if_true, if_pos hcur]
          simp [Except.bind]
        · simp only [List.cons_append, parseLoop, curAfter, if_neg hskip, hsp,
            if_true, if_neg hcur]
          exact ih cur (addLine acc cur l)
      · have hspf : strStarts l " " = false := by
          rcases Bool.eq_false_or_eq_true (strStarts l " ") with ht | hf
          · exact absurd ht hsp
          · exact hf
        simp only [List.cons_append, parseLoop, curAfter, if_neg hskip, hspf,
          Bool.false_eq_true, if_false]
        exact ih l (addLine acc l l)

theorem eq_false_of_ne_true {b : Bool} (h : ¬ b = true) : b = false := by
  cases b
  · rfl
  · exact absurd rfl h

/-- Once an identifier is current it never becomes unset again (real file
lines are nonempty). -/
theorem curAfter_ne (ls : List String) :
    ∀ cur : String, cur ≠ "" → (∀ l ∈ ls, l ≠ "") → curAfter ls cur ≠ "" := by
  induction ls with
  | nil =>
    intro cur hc _
    simpa [curAfter] using hc
  | cons l ls ih =>
    intro cur hc hne
    have hskip : ¬(cur = "" ∧ skippableB l = true) := fun hh => hc hh.1
    by_cases hsp : strStarts l " " = true
    · simp only [curAfter, if_neg hskip, hsp, if_true]
      exact ih cur hc (fun x hx => hne x (List.mem_cons_of_mem l hx))
    · simp only [curAfter, if_neg hskip, eq_false_of_ne_true hsp,
        Bool.false_eq_true, if_false]
      exact ih l (hne l (List.mem_cons_self l ls))
        (fun x hx => hne x (List.mem_cons_of_mem l hx))

/-- After scanning a prefix that contains a content line without raising, an
identifier is current. -/
theorem curAfter_content (ls : List String) :
    ∀ acc : Entries, (∀ l ∈ ls, l ≠ "") →
      (∃ x ∈ ls, skippableB x = false) →
      (∃ acc2, parseLoop ls "" acc = .ok acc2) →
      curAfter ls "" ≠ "" := by
  induction ls with
  | nil =>
    intro acc _ hex _
    rcases hex with ⟨x, hx, _⟩
    simp at hx
  | cons l ls ih =>
    intro acc hne hex hok
    by_cases hs : skippableB l = true
    · simp only [curAfter, and_true, eq_self_iff_true, hs, if_pos, true_and, if_true]
      rw [parseLoop_skip ls acc hs] at hok
      have hex2 : ∃ x ∈ ls, skippableB x = false := by
        rcases hex with ⟨x, hx, hxs⟩
        rcases List.mem_cons.mp hx with rfl | hx2
        · rw [hs] at hxs
          cases hxs
        · exact ⟨x, hx2, hxs⟩
      have hgoal := ih acc (fun x hx => hne x (List.mem_cons_of_mem l hx)) hex2 hok
      simpa [curAfter, hs] using hgoal
    · have hskip : ¬(("" : String) = "" ∧ skippableB l = true) := fun hh => hs hh.2
      by_cases hsp : strStarts l " " = true
      · rcases hok with ⟨acc2, hok⟩
        rw [parseLoop_space_err ls acc (eq_false_of_ne_true hs) hsp] at hok
        cases hok
      · simp only [curAfter, eq_false_of_ne_true hs, eq_false_of_ne_true hsp,
          Bool.false_eq_true, and_false, if_false]
        exact curAfter_ne ls l (hne l (List.mem_cons_self l ls))
          (fun x hx => hne x (List.mem_cons_of_mem l hx))

/-- The scan never raises once an identifier is current, on nonempty lines. -/
theorem parseLoop_ok_of_ne (ls : List String) :
    ∀ (cur : String) (acc : Entries), cur ≠ "" → (∀ l ∈ ls, l ≠ "") →
      ∃ m, parseLoop ls cur acc = .ok m := by
  induction ls with
  | nil =>
    intro cur acc _ _
    exact ⟨acc, rfl⟩
  | cons l ls ih =>
    intro cur acc hc hne
    have hskip : ¬(cur = "" ∧ skippableB l = true) := fun hh => hc hh.1
    by_cases hsp : strStarts l " " = true
    · rw [parseLoop_space ls acc hc hsp]
      exact ih cur (addLine acc cur l) hc (fun x hx => hne x (List.mem_cons_of_mem l hx))
    · rw [parseLoop_key ls acc hskip (eq_false_of_ne_true hsp)]
      exact ih l (addLine acc l l) (hne l (List.mem_cons_self l ls))
        (fun x hx => hne x (List.mem_cons_of_mem l hx))

/-- In the block attributed to k, the identifier line appears once per
identifier occurrence (the other block lines are indented, and k is not). -/
theorem count_blockOf (k : String) (hk : strStarts k " " = false) (ls : List String) :
    ∀ cur : String, (blockOf k ls cur).count k = idOcc k ls cur := by
  induction ls with
  | nil =>
    intro cur
    simp [blockOf, idOcc]
  | cons l ls ih =>
    intro cur
    by_cases hskip : cur = "" ∧ skippableB l = true
    · simp only [blockOf, idOcc, if_pos hskip]
      exact ih cur
    · by_cases hsp : strStarts l " " = true
      · have hlk : l ≠ k := by
          intro he
          rw [he, hk] at hsp
          cases hsp
        simp only [blockOf, idOcc, if_neg hskip, hsp, if_true]
        by_cases hck : cur = k
        · simp only [if_pos hck, List.count_cons]
          simp [hlk, ih cur]
        · simp [hck, ih cur]
      · simp only [blockOf, idOcc, if_neg hskip, eq_false_of_ne_true hsp,
          Bool.false_eq_true, if_false]
        by_cases hlk : l = k
        · subst hlk
          simp [List.count_cons, ih l, Nat.add_comm]
        · simp [hlk, List.count_cons, ih l]

/-! ### Well-formedness of parse results -/

theorem hasKey_ne_nil {m : Entries} {k : String} (h : hasKey m k = true) : m ≠ [] := by
  intro he
  rw [he] at h
  cases h

theorem head?_append_left {α : Type} {b : List α} (c : List α) (h : b ≠ []) :
    (b ++ c).head? = b.head? := by
  cases b with
  | nil => exact absurd rfl h
  | cons x xs => rfl

/-- Where an entry of addLine m k l comes from: untouched, newly created, or
the existing entry of k with l appended. -/
theorem mem_addLine (m : Entries) (k l : String) :
    ∀ p ∈ addLine m k l,
      p ∈ m ∨ (hasKey m k = false ∧ p = (k, [l])) ∨
        (∃ b, (k, b) ∈ m ∧ p = (k, b ++ [l])) := by
  induction m with
  | nil =>
    intro p hp
    simp [addLine] at hp
    exact Or.inr (Or.inl ⟨rfl, hp⟩)
  | cons e m ih =>
    obtain ⟨k', b⟩ := e
    intro p hp
    by_cases h1 : k' = k
    · subst h1
      simp only [addLine, if_pos rfl] at hp
      rcases List.mem_cons.mp hp with rfl | hp2
      · exact Or.inr (Or.inr ⟨b, List.mem_cons_self _ _, rfl⟩)
      · exact Or.inl (List.mem_cons_of_mem _ hp2)
    · simp only [addLine, if_neg h1] at hp
      rcases List.mem_cons.mp hp with rfl | hp2
      · exact Or.inl (List.mem_cons_self _ _)
      · rcases ih p hp2 with hm | ⟨hk, he⟩ | ⟨b2, hb2, he⟩
        · exact Or.inl (List.mem_cons_of_mem _ hm)
        · refine Or.inr (Or.inl ⟨?_, he⟩)
          simp [hasKey, h1, hk]
        · exact Or.inr (Or.inr ⟨b2, List.mem_cons_of_mem _ hb2, he⟩)

/-- The head entry of addLine: a fresh key goes to the back (or starts the
list), an append to the head key keeps its key. -/
theorem head?_addLine (m : Entries) (k l : String) :
    (addLine m k l).head? =
      match m.head? with
      | none => some (k, [l])
      | some (k', b) => if k' = k then some (k', b ++ [l]) else some (k', b) := by
  cases m with
  | nil => rfl
  | cons e m =>
    obtain ⟨k', b⟩ := e
    by_cases h1 : k' = k
    · subst h1
      simp [addLine]
    · simp [addLine, h1]

/-- Appending an indented continuation line to an existing key preserves
well-formedness. -/
theorem wf_addLine_space (acc : Entries) (k l : String)
    (hwf : wfEntries acc) (hk : hasKey acc k = true)
    (hsp : strStarts l " " = true) (hl : l ≠ "") :
    wfEntries (addLine acc k l) := by
  obtain ⟨hw, hnd, hhd⟩ := hwf
  refine ⟨?_, ?_, ?_⟩
  · intro p hp
    rcases mem_addLine acc k l p hp with hm | ⟨hkf, _⟩ | ⟨b, hb, rfl⟩
    · exact hw p hm
    · rw [hk] at hkf
      cases hkf
    · obtain ⟨h1, h2, h3, h4, h5, h6⟩ := hw (k, b) hb
      refine ⟨h1, h2, by simp, ?_, ?_, ?_⟩
      · rw [head?_append_left [l] h3]
        exact h4
      · intro x hx
        rcases List.mem_append.mp hx with hx1 | hx2
        · exact h5 x hx1
        · rw [List.mem_singleton.mp hx2]
          exact Or.inr hsp
      · intro x hx
        rcases List.mem_append.mp hx with hx1 | hx2
        · exact h6 x hx1
        · rw [List.mem_singleton.mp hx2]
          exact hl
  · rw [keys_addLine, if_pos hk]
    exact hnd
  · intro p hp
    rw [head?_addLine] at hp
    cases hm : acc.head? with
    | none => exact absurd hm (by simpa using hasKey_ne_nil hk)
    | some q =>
      obtain ⟨k', b⟩ := q
      rw [hm] at hp
      by_cases h1 : k' = k
      · simp only [if_pos h1] at hp
        cases hp
        exact hhd (k', b) hm
      · simp only [if_neg h1] at hp
        cases hp
        exact hhd (k', b) hm

/-- Starting or extending the entry of identifier line l preserves
well-formedness. -/
theorem wf_addLine_key (acc : Entries) (l : String)
    (hwf : wfEntries acc) (hl : l ≠ "") (hns : strStarts l " " = false)
    (hcont : acc = [] → skippableB l = false) :
    wfEntries (addLine acc l l) := by
  obtain ⟨hw, hnd, hhd⟩ := hwf
  refine ⟨?_, ?_, ?_⟩
  · intro p hp
    rcases mem_addLine acc l l p hp with hm | ⟨_, rfl⟩ | ⟨b, hb, rfl⟩
    · exact hw p hm
    · exact ⟨hl, hns, by simp, rfl, by simp, by simp [hl]⟩
    · obtain ⟨h1, h2, h3, h4, h5, h6⟩ := hw (l, b) hb
      refine ⟨h1, h2, by simp, ?_, ?_, ?_⟩
      · rw [head?_append_left [l] h3]
        exact h4
      · intro x hx
        rcases List.mem_append.mp hx with hx1 | hx2
        · exact h5 x hx1
        · rw [List.mem_singleton.mp hx2]
          exact Or.inl rfl
      · intro x hx
        rcases List.mem_append.mp hx with hx1 | hx2
        · exact h6 x hx1
        · rw [List.mem_singleton.mp hx2]
          exact hl
  · rw [keys_addLine]
    by_cases hk : hasKey acc l = true
    · rw [if_pos hk]
      exact hnd
    · rw [if_neg hk]
      have hni : l ∉ acc.map Prod.fst := fun hin =>
        hk ((hasKey_iff_mem_keys acc l).mpr hin)
      simp [List.nodup_append, hnd, hni]
  · intro p hp
    rw [head?_addLine] at hp
    cases hm : acc.head? with
    | none =>
      rw [hm] at hp
      cases hp
      have hacc : acc = [] := by
        cases acc with
        | nil => rfl
        | cons q acc2 => cases (hm : (q :: acc2).head? = none)
      exact hcont hacc
    | some q =>
      obtain ⟨k', b⟩ := q
      rw [hm] at hp
      by_cases h1 : k' = l
      · simp only [if_pos h1] at hp
        cases hp
        exact hhd (k', b) hm
      · simp only [if_neg h1] at hp
        cases hp
        exact hhd (k', b) hm

/-- A successful parse of a file with nonempty lines yields a well-formed
mapping.  Stated over the loop with its state invariant. -/
theorem parseLoop_wf (ls : List String) :
    ∀ (cur : String) (acc m : Entries),
      parseLoop ls cur acc = .ok m →
      (∀ l ∈ ls, l ≠ "") →
      wfEntries acc →
      (cur = "" → acc = []) →
      (cur ≠ "" → hasKey acc cur = true) →
      wfEntries m := by
  induction ls with
  | nil =>
    intro cur acc m h _ hwf _ _
    simp [parseLoop] at h
    subst h
    exact hwf
  | cons l rest ih =>
    intro cur acc m h hne hwf hemp hcur
    have hnel : l ≠ "" := hne l (List.mem_cons_self l rest)
    have hner : ∀ x ∈ rest, x ≠ "" := fun x hx => hne x (List.mem_cons_of_mem l hx)
    by_cases hskip : cur = "" ∧ skippableB l = true
    · obtain ⟨hc, hs⟩ := hskip
      subst hc
      rw [parseLoop_skip rest acc hs] at h
      exact ih "" acc m h hner hwf hemp hcur
    · by_cases hsp : strStarts l " " = true
      · by_cases hc : cur = ""
        · subst hc
          have hns : skippableB l = false := by
            rcases Bool.eq_false_or_eq_true (skippableB l) with ht | hf
            · exact absurd ⟨rfl, ht⟩ hskip
            · exact hf
          rw [parseLoop_space_err rest acc hns hsp] at h
          cases h
        · rw [parseLoop_space rest acc hc hsp] at h
          have hkcur := hcur hc
          refine ih cur (addLine acc cur l) m h hner
            (wf_addLine_space acc cur l hwf hkcur hsp hnel) ?_ ?_
          · intro hce
            exact absurd hce hc
          · intro _
            rw [hasKey_addLine]
            simp
      · rw [parseLoop_key rest acc hskip (eq_false_of_ne_true hsp)] at h
        have hcont : acc = [] → skippableB l = false := by
          intro hacc
          by_cases hc : cur = ""
          · rcases Bool.eq_false_or_eq_true (skippableB l) with ht | hf
            · exact absurd ⟨hc, ht⟩ hskip
            · exact hf
          · have := hcur hc
            rw [hacc] at this
            cases this
        refine ih l (addLine acc l l) m h hner
          (wf_addLine_key acc l hwf hnel (eq_false_of_ne_true hsp) hcont) ?_ ?_
        · intro hle
          exact absurd hle hnel
        · intro _
          rw [hasKey_addLine]
          simp

/-- parse_requirements on a real file (nonempty lines) returns a well-formed
mapping when it succeeds. -/
theorem parse_wf (f : List String) (m : Entries)
    (h : parse_requirements f = .ok m) (hne : ∀ l ∈ f, l ≠ "") :
    wfEntries m := by
  refine parseLoop_wf f "" [] m h hne ?_ ?_ ?_
  · exact ⟨by simp, by simp, by simp⟩
  · intro _; rfl
  · intro hc; exact absurd rfl hc

/-! ### Reparsing written output -/

theorem addLine_absent (m : Entries) (k l : String) (h : hasKey m k = false) :
    addLine m k l = m ++ [(k, [l])] := by
  induction m with
  | nil => rfl
  | cons e m ih =>
    obtain ⟨k', b⟩ := e
    simp [hasKey] at h
    simp [addLine, h.1, ih h.2]

theorem hasKey_append (m1 m2 : Entries) (k : String) :
    hasKey (m1 ++ m2) k = (hasKey m1 k || hasKey m2 k) := by
  induction m1 with
  | nil => simp [hasKey]
  | cons e m1 ih =>
    obtain ⟨k', b⟩ := e
    simp [hasKey, ih, Bool.or_assoc]

/-- Consuming the tail of one block: every line is either the identifier
again or indented, and both re-select / extend the same entry. -/
theorem parseLoop_block (k : String) (hk : k ≠ "") (hns : strStarts k " " = false)
    (t : List String) :
    ∀ (rest : List String) (acc : Entries),
      (∀ l ∈ t, l = k ∨ strStarts l " " = true) →
      parseLoop (t ++ rest) k acc =
        parseLoop rest k (t.foldl (fun a l => addLine a k l) acc) := by
  induction t with
  | nil =>
    intro rest acc _
    simp
  | cons l t ih =>
    intro rest acc hl
    have hskip : ¬(k = "" ∧ skippableB l = true) := fun hh => hk hh.1
    have htail : ∀ x ∈ t, x = k ∨ strStarts x " " = true :=
      fun x hx => hl x (List.mem_cons_of_mem l hx)
    rcases hl l (List.mem_cons_self l t) with rfl | hsp
    · rw [List.cons_append, parseLoop_key _ _ hskip hns, ih rest (addLine acc l l) htail]
      simp
    · rw [List.cons_append, parseLoop_space _ _ hk hsp, ih rest (addLine acc k l) htail]
      simp

theorem addLine_middle (acc1 : Entries) (k : String) (b : List String)
    (acc2 : Entries) (l : String) (h : hasKey acc1 k = false) :
    addLine (acc1 ++ (k, b) :: acc2) k l = acc1 ++ (k, b ++ [l]) :: acc2 := by
  induction acc1 with
  | nil => simp [addLine]
  | cons e acc1 ih =>
    obtain ⟨k', b'⟩ := e
    simp [hasKey] at h
    simp [addLine, h.1, ih h.2]

theorem foldl_addLine (k : String) (t : List String) :
    ∀ (acc1 : Entries) (b : List String) (acc2 : Entries), hasKey acc1 k = false →
      t.foldl (fun a l => addLine a k l) (acc1 ++ (k, b) :: acc2)
        = acc1 ++ (k, b ++ t) :: acc2 := by
  induction t with
  | nil =>
    intro acc1 b acc2 _
    simp
  | cons l t ih =>
    intro acc1 b acc2 h
    rw [List.foldl_cons, addLine_middle acc1 k b acc2 l h, ih acc1 (b ++ [l]) acc2 h]
    simp

/-- Re-scanning the concatenated blocks of a well-formed mapping, with an
identifier already current, reproduces exactly those entries. -/
theorem reparse_blocks (ms : Entries) :
    ∀ (cur : String) (acc : Entries), cur ≠ "" →
      (∀ p ∈ ms, wfEntry p) →
      (ms.map Prod.fst).Nodup →
      (∀ p ∈ ms, hasKey acc p.1 = false) →
      parseLoop (joinBlocks ms) cur acc = .ok (acc ++ ms) := by
  induction ms with
  | nil =>
    intro cur acc _ _ _ _
    simp [joinBlocks, parseLoop]
  | cons e ms ih =>
    obtain ⟨k, b⟩ := e
    intro cur acc hcur hwf hnd hdisj
    obtain ⟨hk, hkns, hbne, hhead, hmem, _⟩ := hwf (k, b) (List.mem_cons_self _ _)
    obtain ⟨t, rfl⟩ : ∃ t, b = k :: t := by
      cases b with
      | nil => exact absurd rfl hbne
      | cons x t =>
        refine ⟨t, ?_⟩
        have hx : x = k := by simpa using hhead
        rw [hx]
    have hjoin : joinBlocks ((k, k :: t) :: ms) = (k :: t) ++ joinBlocks ms := by
      simp [joinBlocks]
    rw [hjoin, List.cons_append]
    have hskip : ¬(cur = "" ∧ skippableB k = true) := fun hh => hcur hh.1
    rw [parseLoop_key _ _ hskip hkns]
    have hknacc : hasKey acc k = false := hdisj (k, k :: t) (List.mem_cons_self _ _)
    rw [addLine_absent acc k k hknacc]
    have htl : ∀ l ∈ t, l = k ∨ strStarts l " " = true :=
      fun l hl => hmem l (List.mem_cons_of_mem k hl)
    rw [parseLoop_block k hk hkns t (joinBlocks ms) (acc ++ [(k, [k])]) htl]
    have hfold := foldl_addLine k t acc [k] [] hknacc
    rw [List.map_cons, List.nodup_cons] at hnd
    have hdisj2 : ∀ p ∈ ms, hasKey (acc ++ [(k, k :: t)]) p.1 = false := by
      intro p hp
      rw [hasKey_append]
      have h1 : hasKey acc p.1 = false := hdisj p (List.mem_cons_of_mem _ hp)
      have h2 : hasKey [(k, k :: t)] p.1 = false := by
        have hne : k ≠ p.1 := by
          intro he
          exact hnd.1 (he ▸ List.mem_map.mpr ⟨p, hp, rfl⟩)
        simp [hasKey, hne]
      rw [h1, h2]
      rfl
    have hstep := ih k (acc ++ [(k, k :: t)]) hk
      (fun p hp => hwf p (List.mem_cons_of_mem _ hp)) hnd.2 hdisj2
    simp only [List.singleton_append] at hfold
    rw [hfold, hstep]
    simp

/-- Parsing the file written for a well-formed mapping with no parents (the
base file) reproduces the mapping exactly. -/
theorem parse_writeLines_nil (m : Entries) (hwf : wfEntries m) :
    parse_requirements (writeLines [] m) = .ok m := by
  obtain ⟨hw, hnd, hhd⟩ := hwf
  have hwl : writeLines [] m = headerLine :: "\n" :: joinBlocks m := by
    simp [writeLines]
  rw [hwl]
  unfold parse_requirements
  rw [parseLoop_skip _ _ (by decide), parseLoop_skip _ _ (by decide)]
  cases m with
  | nil => simp [joinBlocks, parseLoop]
  | cons e ms =>
    obtain ⟨k, b⟩ := e
    obtain ⟨hk, hkns, hbne, hhead, hmem, _⟩ := hw (k, b) (List.mem_cons_self _ _)
    obtain ⟨t, rfl⟩ : ∃ t, b = k :: t := by
      cases b with
      | nil => exact absurd rfl hbne
      | cons x t =>
        refine ⟨t, ?_⟩
        have hx : x = k := by simpa using hhead
        rw [hx]
    have hcont : skippableB k = false := hhd (k, k :: t) rfl
    have hjoin : joinBlocks ((k, k :: t) :: ms) = (k :: t) ++ joinBlocks ms := by
      simp [joinBlocks]
    rw [hjoin, List.cons_append]
    have hskip : ¬(("" : String) = "" ∧ skippableB k = true) := by
      intro hh
      rw [hcont] at hh
      cases hh.2
    rw [parseLoop_key _ _ hskip hkns]
    have haddnil : addLine ([] : Entries) k k = [(k, [k])] := rfl
    rw [haddnil]
    have htl : ∀ l ∈ t, l = k ∨ strStarts l " " = true :=
      fun l hl => hmem l (List.mem_cons_of_mem k hl)
    rw [parseLoop_block k hk hkns t (joinBlocks ms) [(k, [k])] htl]
    have hfold := foldl_addLine k t [] [k] [] (by rfl)
    rw [List.map_cons, List.nodup_cons] at hnd
    have hdisj2 : ∀ p ∈ ms, hasKey [(k, k :: t)] p.1 = false := by
      intro p hp
      have hne : k ≠ p.1 := by
        intro he
        exact hnd.1 (he ▸ List.mem_map.mpr ⟨p, hp, rfl⟩)
      simp [hasKey, hne]
    have hstep := reparse_blocks ms k [(k, k :: t)] hk
      (fun p hp => hw p (List.mem_cons_of_mem _ hp)) hnd.2 hdisj2
    simp only [List.nil_append, List.singleton_append] at hfold
    rw [hfold, hstep]
    simp

/-- Parsing a written file that begins with one include line succeeds on
nonempty remaining lines (the include line is taken as an identifier). -/
theorem parse_after_header (rl : String) (hrl1 : rl ≠ "")
    (hrl2 : skippableB rl = false) (hrl3 : strStarts rl " " = false)
    (rest : List String) (hne : ∀ l ∈ rest, l ≠ "") :
    ∃ m, parse_requirements (headerLine :: rl :: "\n" :: rest) = .ok m := by
  unfold parse_requirements
  rw [parseLoop_skip _ _ (by decide)]
  have hskip : ¬(("" : String) = "" ∧ skippableB rl = true) := by
    intro hh
    rw [hrl2] at hh
    cases hh.2
  rw [parseLoop_key _ _ hskip hrl3]
  have hskip2 : ¬(rl = "" ∧ skippableB "\n" = true) := fun hh => hrl1 hh.1
  rw [parseLoop_key _ _ hskip2 (by decide)]
  exact parseLoop_ok_of_ne rest "\n" _ (by decide) hne

/-! ### deduplicate_requirements: success shape and inversion -/

theorem write_base_eq (m : Entries) :
    write_requirements BASE_REQUIREMENTS m [] = .ok (writeLines [] m) := rfl

theorem write_prod_eq (m : Entries) :
    write_requirements PRODUCTION_REQUIREMENTS m [BASE_REQUIREMENTS]
      = .ok (writeLines [["base.txt"]] m) := rfl

theorem write_dev_eq (m : Entries) :
    write_requirements DEVELOPMENT_REQUIREMENTS m [BASE_REQUIREMENTS]
      = .ok (writeLines [["base.txt"]] m) := rfl

theorem write_test_eq (m : Entries) :
    write_requirements TESTING_REQUIREMENTS m [DEVELOPMENT_REQUIREMENTS]
      = .ok (writeLines [["development.txt"]] m) := rfl

theorem write_all_eq (m : Entries) :
    write_requirements ALL_REQUIREMENTS m
        [DEVELOPMENT_REQUIREMENTS, PRODUCTION_REQUIREMENTS, TESTING_REQUIREMENTS]
      = .ok (writeLines [["development.txt"], ["production.txt"], ["testing.txt"]] m) := rfl

/-- When all four parsed files parse successfully, deduplicate_requirements
succeeds and writes exactly these five files. -/
theorem dedup_eq (fs : ReqFiles) (B P D T : Entries)
    (hB : parse_requirements fs.base = .ok B)
    (hP : parse_requirements fs.production = .ok P)
    (hD : parse_requirements fs.development = .ok D)
    (hT : parse_requirements fs.testing = .ok T) :
    deduplicate_requirements fs =
      ({ base := writeLines [] B,
         production := writeLines [["base.txt"]] (filterNotIn P B),
         development := writeLines [["base.txt"]] (filterNotIn D B),
         testing := writeLines [["development.txt"]] (filterTesting T B D),
         all := writeLines [["development.txt"], ["production.txt"], ["testing.txt"]] [] },
       none) := by
  unfold deduplicate_requirements
  simp only [hB, write_base_eq, hP, write_prod_eq, hD, write_dev_eq, hT,
    write_test_eq, write_all_eq]

/-- A successful run means all four parsed files parsed successfully. -/
theorem dedup_none_inv (fs fs' : ReqFiles)
    (h : deduplicate_requirements fs = (fs', none)) :
    ∃ B P D T, parse_requirements fs.base = .ok B ∧
      parse_requirements fs.production = .ok P ∧
      parse_requirements fs.development = .ok D ∧
      parse_requirements fs.testing = .ok T := by
  unfold deduplicate_requirements at h
  cases hB : parse_requirements fs.base with
  | error e =>
    rw [hB] at h
    simp at h
  | ok B =>
    rw [hB] at h
    simp only [write_base_eq] at h
    cases hP : parse_requirements fs.production with
    | error e =>
      rw [hP] at h
      simp at h
    | ok P =>
      rw [hP] at h
      simp only [write_prod_eq] at h
      cases hD : parse_requirements fs.development with
      | error e =>
        rw [hD] at h
        simp at h
      | ok D =>
        rw [hD] at h
        simp only [write_dev_eq] at h
        cases hT : parse_requirements fs.testing with
        | error e =>
          rw [hT] at h
          simp at h
        | ok T =>
          exact ⟨B, P, D, T, rfl, rfl, rfl, rfl⟩

/-! ### Filter lemmas -/

theorem mem_filterNotIn (m base : Entries) (p : String × List String) :
    p ∈ filterNotIn m base ↔ p ∈ m ∧ hasKey base p.1 = false := by
  simp [filterNotIn, List.mem_filter]

theorem mem_filterTesting (m base dev : Entries) (p : String × List String) :
    p ∈ filterTesting m base dev
      ↔ p ∈ m ∧ hasKey base p.1 = false ∧ hasKey dev p.1 = false := by
  simp [filterTesting, List.mem_filter, and_assoc]

theorem hasKey_filterNotIn_of_base (m base : Entries) (k : String)
    (h : hasKey base k = true) : hasKey (filterNotIn m base) k = false := by
  by_cases hc : hasKey (filterNotIn m base) k = true
  · exfalso
    rcases List.mem_map.mp ((hasKey_iff_mem_keys _ _).mp hc) with ⟨p, hp, rfl⟩
    rcases (mem_filterNotIn m base p).mp hp with ⟨_, hf⟩
    rw [h] at hf
    cases hf
  · exact eq_false_of_ne_true hc

theorem hasKey_filterTesting_of_base (m base dev : Entries) (k : String)
    (h : hasKey base k = true) : hasKey (filterTesting m base dev) k = false := by
  by_cases hc : hasKey (filterTesting m base dev) k = true
  · exfalso
    rcases List.mem_map.mp ((hasKey_iff_mem_keys _ _).mp hc) with ⟨p, hp, rfl⟩
    rcases (mem_filterTesting m base dev p).mp hp with ⟨_, hf, _⟩
    rw [h] at hf
    cases hf
  · exact eq_false_of_ne_true hc

theorem hasKey_filterTesting_of_dev (m base dev : Entries) (k : String)
    (h : hasKey dev k = true) : hasKey (filterTesting m base dev) k = false := by
  by_cases hc : hasKey (filterTesting m base dev) k = true
  · exfalso
    rcases List.mem_map.mp ((hasKey_iff_mem_keys _ _).mp hc) with ⟨p, hp, rfl⟩
    rcases (mem_filterTesting m base dev p).mp hp with ⟨_, _, hf⟩
    rw [h] at hf
    cases hf
  · exact eq_false_of_ne_true hc

/-! ### Support lemmas for the claims -/

theorem joinBlocks_ne (m : Entries) (hw : ∀ p ∈ m, wfEntry p) :
    ∀ l ∈ joinBlocks m, l ≠ "" := by
  intro l hl
  have hl2 : l ∈ (List.map Prod.snd m).flatten := hl
  rcases List.mem_flatten.mp hl2 with ⟨b, hb, hlb⟩
  rcases List.mem_map.mp hb with ⟨p, hp, rfl⟩
  exact (hw p hp).2.2.2.2.2 l hlb

theorem joinBlocks_append (xs ys : Entries) :
    joinBlocks (xs ++ ys) = joinBlocks xs ++ joinBlocks ys := by
  simp [joinBlocks]

theorem relAll_ok (d : List String) (ps : List (List String))
    (h : ∀ p ∈ ps, d.isPrefixOf p = true) :
    relAll ps d = .ok (ps.map (fun p => p.drop d.length)) := by
  induction ps with
  | nil => rfl
  | cons p ps ih =>
    have h1 : d.isPrefixOf p = true := h p (List.mem_cons_self p ps)
    have h2 := ih (fun q hq => h q (List.mem_cons_of_mem p hq))
    simp [relAll, relativeTo, h1, h2]

theorem runSeq_split (ex : List String → Int) (c : List String)
    (post : List (List String)) :
    ∀ pre : List (List String), (∀ x ∈ pre, ex x = 0) → ex c ≠ 0 →
      runSeq ex (pre ++ c :: post) = (pre ++ [c], some c) := by
  intro pre
  induction pre with
  | nil =>
    intro _ hc
    simp [runSeq, hc]
  | cons p pre ih =>
    intro hpre hc
    have hp : ex p = 0 := hpre p (List.mem_cons_self p pre)
    have h2 := ih (fun x hx => hpre x (List.mem_cons_of_mem p hx)) hc
    simp [runSeq, hp, h2]

theorem parse_err_of_firstContent (f : List String) (l : String)
    (h1 : firstContent f = some l) (h2 : strStarts l " " = true) :
    parse_requirements f = .error errMsg := by
  unfold parse_requirements
  induction f with
  | nil => simp [firstContent] at h1
  | cons x f ih =>
    by_cases hs : skippableB x = true
    · rw [parseLoop_skip f [] hs]
      apply ih
      simpa [firstContent, hs] using h1
    · have hx : x = l := by
        simpa [firstContent, eq_false_of_ne_true hs] using h1
      subst hx
      exact parseLoop_space_err f [] (eq_false_of_ne_true hs) h2

theorem dedup_base_err (fs : ReqFiles) (e : String)
    (h : parse_requirements fs.base = .error e) :
    deduplicate_requirements fs = (fs, some e) := by
  unfold deduplicate_requirements
  rw [h]

theorem dedup_prod_err (fs : ReqFiles) (B : Entries) (e : String)
    (hB : parse_requirements fs.base = .ok B)
    (h : parse_requirements fs.production = .error e) :
    deduplicate_requirements fs = ({ fs with base := writeLines [] B }, some e) := by
  unfold deduplicate_requirements
  simp only [hB, write_base_eq, h]

theorem dedup_dev_err (fs : ReqFiles) (B P : Entries) (e : String)
    (hB : parse_requirements fs.base = .ok B)
    (hP : parse_requirements fs.production = .ok P)
    (h : parse_requirements fs.development = .error e) :
    deduplicate_requirements fs =
      ({ base := writeLines [] B,
         production := writeLines [["base.txt"]] (filterNotIn P B),
         development := fs.development, testing := fs.testing, all := fs.all },
       some e) := by
  unfold deduplicate_requirements
  simp only [hB, write_base_eq, hP, write_prod_eq, h]

theorem dedup_test_err (fs : ReqFiles) (B P D : Entries) (e : String)
    (hB : parse_requirements fs.base = .ok B)
    (hP : parse_requirements fs.production = .ok P)
    (hD : parse_requirements fs.development = .ok D)
    (h : parse_requirements fs.testing = .error e) :
    deduplicate_requirements fs =
      ({ base := writeLines [] B,
         production := writeLines [["base.txt"]] (filterNotIn P B),
         development := writeLines [["base.txt"]] (filterNotIn D B),
         testing := fs.testing, all := fs.all },
       some e) := by
  unfold deduplicate_requirements
  simp only [hB, write_base_eq, hP, write_prod_eq, hD, write_dev_eq, h]

/-! ### Claim theorems -/

/-- C1: when deduplicate() runs on parseable files, each derived file's entry
set is exactly its parsed entries whose raw identifier line is not a key of
base's mapping (for testing, additionally not a key of the unfiltered
development mapping); in particular no key of base appears as a standalone
entry in the rewritten production, development, or testing files. -/
theorem c1_base_excluded (fs : ReqFiles) (B P D T : Entries)
    (k : String) (e : String × List String)
    (hB : parse_requirements fs.base = .ok B)
    (hP : parse_requirements fs.production = .ok P)
    (hD : parse_requirements fs.development = .ok D)
    (hT : parse_requirements fs.testing = .ok T)
    (hkB : hasKey B k = true) :
    deduplicate_requirements fs =
      ({ base := writeLines [] B,
         production := writeLines [["base.txt"]] (filterNotIn P B),
         development := writeLines [["base.txt"]] (filterNotIn D B),
         testing := writeLines [["development.txt"]] (filterTesting T B D),
         all := writeLines [["development.txt"], ["production.txt"], ["testing.txt"]] [] },
       none)
    ∧ (e ∈ filterNotIn P B ↔ e ∈ P ∧ hasKey B e.1 = false)
    ∧ (e ∈ filterNotIn D B ↔ e ∈ D ∧ hasKey B e.1 = false)
    ∧ (e ∈ filterTesting T B D ↔ e ∈ T ∧ hasKey B e.1 = false ∧ hasKey D e.1 = false)
    ∧ hasKey (filterNotIn P B) k = false
    ∧ hasKey (filterNotIn D B) k = false
    ∧ hasKey (filterTesting T B D) k = false :=
  ⟨dedup_eq fs B P D T hB hP hD hT, mem_filterNotIn P B e, mem_filterNotIn D B e,
    mem_filterTesting T B D e, hasKey_filterNotIn_of_base P B k hkB,
    hasKey_filterNotIn_of_base D B k hkB, hasKey_filterTesting_of_base T B D k hkB⟩

theorem c1_witness :
    deduplicate_requirements exFiles =
      ({ base := writeLines [] exB,
         production := writeLines [["base.txt"]] (filterNotIn exP exB),
         development := writeLines [["base.txt"]] (filterNotIn exD exB),
         testing := writeLines [["development.txt"]] (filterTesting exT exB exD),
         all := writeLines [["development.txt"], ["production.txt"], ["testing.txt"]] [] },
       none)
    ∧ (("bar==2.0\n", ["bar==2.0\n"]) ∈ filterNotIn exP exB ↔
        ("bar==2.0\n", ["bar==2.0\n"]) ∈ exP ∧ hasKey exB "bar==2.0\n" = false)
    ∧ (("bar==2.0\n", ["bar==2.0\n"]) ∈ filterNotIn exD exB ↔
        ("bar==2.0\n", ["bar==2.0\n"]) ∈ exD ∧ hasKey exB "bar==2.0\n" = false)
    ∧ (("bar==2.0\n", ["bar==2.0\n"]) ∈ filterTesting exT exB exD ↔
        ("bar==2.0\n", ["bar==2.0\n"]) ∈ exT ∧ hasKey exB "bar==2.0\n" = false ∧
          hasKey exD "bar==2.0\n" = false)
    ∧ hasKey (filterNotIn exP exB) "foo==1.0\n" = false
    ∧ hasKey (filterNotIn exD exB) "foo==1.0\n" = false
    ∧ hasKey (filterTesting exT exB exD) "foo==1.0\n" = false :=
  c1_base_excluded exFiles exB exP exD exT "foo==1.0\n" ("bar==2.0\n", ["bar==2.0\n"])
    rfl rfl rfl rfl (by decide)

/-- C4: whenever deduplicate() reaches its final step, the rewritten all file
is exactly the header, three include lines in the order development,
production, testing, and a blank line, with no entries; and the run's result
does not depend on the input content of all.txt, which is never parsed. -/
theorem c4_all_aggregator (fs fs' : ReqFiles) (x : List String)
    (h : deduplicate_requirements fs = (fs', none)) :
    fs'.all = [headerLine, "-r development.txt\n", "-r production.txt\n",
      "-r testing.txt\n", "\n"]
    ∧ deduplicate_requirements { fs with all := x } = (fs', none) := by
  obtain ⟨B, P, D, T, hB, hP, hD, hT⟩ := dedup_none_inv fs fs' h
  have he := dedup_eq fs B P D T hB hP hD hT
  have hfs : fs' =
      { base := writeLines [] B,
        production := writeLines [["base.txt"]] (filterNotIn P B),
        development := writeLines [["base.txt"]] (filterNotIn D B),
        testing := writeLines [["development.txt"]] (filterTesting T B D),
        all := writeLines [["development.txt"], ["production.txt"], ["testing.txt"]] [] } := by
    have h2 := h.symm.trans he
    injection h2 with h3 _
  constructor
  · rw [hfs]
    rfl
  · have he2 := dedup_eq { fs with all := x } B P D T hB hP hD hT
    rw [he2, hfs]

theorem c4_witness :
    exOut.all = [headerLine, "-r development.txt\n", "-r production.txt\n",
      "-r testing.txt\n", "\n"]
    ∧ deduplicate_requirements { exFiles with all := ["junk\n"] } = (exOut, none) :=
  c4_all_aggregator exFiles exOut ["junk\n"] (by decide)

/-- C5: a package key of the development mapping that is not a key of base
keeps its entry in the development rewrite (its exact block appears verbatim
in the written development file), and is excluded from the testing rewrite
even if it is also a key of the parsed testing file. -/
theorem c5_dev_shadows_testing (fs : ReqFiles) (B P D T : Entries) (k : String)
    (hB : parse_requirements fs.base = .ok B)
    (hP : parse_requirements fs.production = .ok P)
    (hD : parse_requirements fs.development = .ok D)
    (hT : parse_requirements fs.testing = .ok T)
    (hkD : hasKey D k = true) (hkB : hasKey B k = false) :
    (k, lookupD D k) ∈ filterNotIn D B
    ∧ lookupD D k <:+: (deduplicate_requirements fs).1.development
    ∧ hasKey (filterTesting T B D) k = false
    ∧ (deduplicate_requirements fs).2 = none := by
  have hd := dedup_eq fs B P D T hB hP hD hT
  have hmem : (k, lookupD D k) ∈ D := mem_of_hasKey D k hkD
  have h1 : (k, lookupD D k) ∈ filterNotIn D B :=
    (mem_filterNotIn D B _).mpr ⟨hmem, hkB⟩
  refine ⟨h1, ?_, hasKey_filterTesting_of_dev T B D k hkD, by rw [hd]⟩
  rw [hd]
  show lookupD D k <:+: writeLines [["base.txt"]] (filterNotIn D B)
  obtain ⟨s, t, hst⟩ := List.append_of_mem h1
  refine ⟨headerLine :: "-r base.txt\n" :: "\n" :: joinBlocks s, joinBlocks t, ?_⟩
  rw [hst]
  simp [writeLines, joinBlocks]
  rfl

theorem c5_witness :
    ("baz==3.0\n", lookupD exD "baz==3.0\n") ∈ filterNotIn exD exB
    ∧ lookupD exD "baz==3.0\n" <:+: (deduplicate_requirements exFiles).1.development
    ∧ hasKey (filterTesting exT exB exD) "baz==3.0\n" = false
    ∧ (deduplicate_requirements exFiles).2 = none :=
  c5_dev_shadows_testing exFiles exB exP exD exT "baz==3.0\n" rfl rfl rfl rfl
    (by decide) (by decide)

/-- C7: write() produces exactly one autogeneration header line naming the
generating script, one -r include line per parent in the given order with the
parent's path relative to the output file's directory, one blank line, and
every entry's block in mapping order; this entire content replaces the output
file. -/
theorem c7_write_layout (out : List String) (m : Entries)
    (parents : List (List String))
    (h : ∀ p ∈ parents, (out.dropLast).isPrefixOf p = true) :
    write_requirements out m parents =
      .ok (headerLine ::
        (parents.map (fun p => "-r " ++ pathStr (p.drop out.dropLast.length) ++ "\n")
          ++ "\n" :: joinBlocks m)) := by
  unfold write_requirements
  rw [relAll_ok out.dropLast parents h]
  simp [writeLines, List.map_map, Function.comp]

theorem c7_witness :
    write_requirements PRODUCTION_REQUIREMENTS exB [BASE_REQUIREMENTS] =
      .ok (headerLine ::
        ([BASE_REQUIREMENTS].map
            (fun p => "-r " ++ pathStr (p.drop PRODUCTION_REQUIREMENTS.dropLast.length) ++ "\n")
          ++ "\n" :: joinBlocks exB)) :=
  c7_write_layout PRODUCTION_REQUIREMENTS exB [BASE_REQUIREMENTS] (by decide)

/-- C8: if a command of the fixed six-command sequence exits with nonzero
status after all earlier ones succeeded, exactly the commands up to and
including the failing one are executed, the failing command is surfaced, and
the deduplication pass is never started. -/
theorem c8_failfast (ex : List String → Int) (absRoot : String) (fs : ReqFiles)
    (pre : List (List String)) (c : List String) (post : List (List String))
    (hsplit : commands absRoot = pre ++ c :: post)
    (hpre : ∀ x ∈ pre, ex x = 0) (hc : ex c ≠ 0) :
    runSeq ex (commands absRoot) = (pre ++ [c], some c)
    ∧ main ex absRoot fs = (pre ++ [c], none) := by
  have h1 : runSeq ex (commands absRoot) = (pre ++ [c], some c) := by
    rw [hsplit]
    exact runSeq_split ex c post pre hpre hc
  refine ⟨h1, ?_⟩
  unfold main
  rw [h1]

theorem c8_witness :
    runSeq exFailing (commands "/x/") = ([["uv", "lock"]], some ["uv", "lock"])
    ∧ main exFailing "/x/" exFiles = ([["uv", "lock"]], none) :=
  c8_failfast exFailing "/x/" exFiles [] ["uv", "lock"] ((commands "/x/").drop 1)
    rfl (by simp) (by decide)

/-- C3 counterexample: the claim as stated is false.  A first content line
whose leading whitespace is a tab (a whitespace character) is not rejected:
the parser tests only for a leading space character, so the tab line is taken
as a package identifier and parsing succeeds. -/
theorem c3_counterexample :
    isPySpace (tabLine.toList.headD ' ') = true
    ∧ skippableB tabLine = false
    ∧ firstContent [tabLine] = some tabLine
    ∧ parse_requirements [tabLine] = .ok [(tabLine, [tabLine])] := by
  decide

/-- C3 (amended: "leading whitespace" must be the space character U+0020):
a file whose first content line starts with a space makes parse raise the
"unexpected indentation" error; when such a file is met inside
deduplicate(), the run stops with that error, the failing step's output file
keeps its input content, and files rewritten by earlier steps stay
rewritten. -/
theorem c3_space_error (fs : ReqFiles) (f : List String)
    (l lb lp ld lt : String) (B P D : Entries) :
    (firstContent f = some l → strStarts l " " = true →
      parse_requirements f = .error errMsg)
    ∧ (firstContent fs.base = some lb → strStarts lb " " = true →
        deduplicate_requirements fs = (fs, some errMsg))
    ∧ (parse_requirements fs.base = .ok B →
        firstContent fs.production = some lp → strStarts lp " " = true →
        deduplicate_requirements fs = ({ fs with base := writeLines [] B }, some errMsg))
    ∧ (parse_requirements fs.base = .ok B →
        parse_requirements fs.production = .ok P →
        firstContent fs.development = some ld → strStarts ld " " = true →
        deduplicate_requirements fs =
          ({ base := writeLines [] B,
             production := writeLines [["base.txt"]] (filterNotIn P B),
             development := fs.development, testing := fs.testing, all := fs.all },
           some errMsg))
    ∧ (parse_requirements fs.base = .ok B →
        parse_requirements fs.production = .ok P →
        parse_requirements fs.development = .ok D →
        firstContent fs.testing = some lt → strStarts lt " " = true →
        deduplicate_requirements fs =
          ({ base := writeLines [] B,
             production := writeLines [["base.txt"]] (filterNotIn P B),
             development := writeLines [["base.txt"]] (filterNotIn D B),
             testing := fs.testing, all := fs.all },
           some errMsg)) :=
  ⟨fun h1 h2 => parse_err_of_firstContent f l h1 h2,
   fun h1 h2 => dedup_base_err fs errMsg (parse_err_of_firstContent _ lb h1 h2),
   fun hB h1 h2 => dedup_prod_err fs B errMsg hB (parse_err_of_firstContent _ lp h1 h2),
   fun hB hP h1 h2 => dedup_dev_err fs B P errMsg hB hP (parse_err_of_firstContent _ ld h1 h2),
   fun hB hP hD h1 h2 =>
     dedup_test_err fs B P D errMsg hB hP hD (parse_err_of_firstContent _ lt h1 h2)⟩

theorem c3_witness :
    deduplicate_requirements exBadProd
      = ({ exBadProd with base := writeLines [] exB }, some errMsg) :=
  (c3_space_error exBadProd ["    --hash=abc\n"] "    --hash=abc\n" "    --hash=abc\n"
    "    --hash=abc\n" "    --hash=abc\n" "    --hash=abc\n" exB [] []).2.2.1
    rfl rfl (by decide)

/-- C6 counterexample: the claim as stated is false.  With an entry current,
a line whose leading whitespace is a tab is not appended to the current
block: it starts a new entry of its own. -/
theorem c6_counterexample :
    isPySpace '\t' = true
    ∧ parse_requirements ["foo==1.0\n", "\tbar==2.0\n"]
        = .ok [("foo==1.0\n", ["foo==1.0\n"]), ("\tbar==2.0\n", ["\tbar==2.0\n"])] := by
  decide

/-- C6 (amended: only a line whose first character is the space character is
a continuation): with an entry current, a space-led line is appended to the
current entry's block, no new entry is created, and no error is raised. -/
theorem c6_space_appends (l cur : String) (rest : List String) (acc : Entries)
    (hcur : cur ≠ "") (hsp : strStarts l " " = true) (hk : hasKey acc cur = true) :
    parseLoop (l :: rest) cur acc = parseLoop rest cur (addLine acc cur l)
    ∧ (addLine acc cur l).map Prod.fst = acc.map Prod.fst
    ∧ lookupD (addLine acc cur l) cur = lookupD acc cur ++ [l] := by
  refine ⟨parseLoop_space rest acc hcur hsp, ?_, ?_⟩
  · rw [keys_addLine, if_pos hk]
  · rw [lookupD_addLine]
    simp

theorem c6_witness :
    parseLoop ["    --hash=abc\n"] "foo==1.0\n" exB
        = parseLoop [] "foo==1.0\n" (addLine exB "foo==1.0\n" "    --hash=abc\n")
    ∧ (addLine exB "foo==1.0\n" "    --hash=abc\n").map Prod.fst = exB.map Prod.fst
    ∧ lookupD (addLine exB "foo==1.0\n" "    --hash=abc\n") "foo==1.0\n"
        = lookupD exB "foo==1.0\n" ++ ["    --hash=abc\n"] :=
  c6_space_appends "    --hash=abc\n" "foo==1.0\n" [] exB (by decide) (by decide)
    (by decide)

/-- C9: after an identifier has been seen, a blank or comment line that does
not begin with a space is not dropped: it is recorded as an entry keyed by
its own raw text, and that text is emitted in any file written from the
resulting mapping. -/
theorem c9_blank_comment_entries (pre : List String) (l : String)
    (rest : List String) (m : Entries) (rels : List (List String)) (x : String)
    (hne : ∀ y ∈ pre ++ l :: rest, y ≠ "")
    (hx : x ∈ pre) (hxc : skippableB x = false)
    (_hl : skippableB l = true) (hns : strStarts l " " = false)
    (hp : parse_requirements (pre ++ l :: rest) = .ok m) :
    hasKey m l = true ∧ l ∈ lookupD m l ∧ l ∈ joinBlocks m
    ∧ l ∈ writeLines rels m := by
  unfold parse_requirements at hp
  rw [parseLoop_append pre (l :: rest) "" []] at hp
  cases hpre : parseLoop pre "" [] with
  | error e =>
    rw [hpre] at hp
    cases hp
  | ok acc1 =>
    rw [hpre] at hp
    have hp2 : parseLoop (l :: rest) (curAfter pre "") acc1 = .ok m := hp
    have hc : curAfter pre "" ≠ "" :=
      curAfter_content pre [] (fun y hy => hne y (List.mem_append_left _ hy))
        ⟨x, hx, hxc⟩ ⟨acc1, hpre⟩
    rw [parseLoop_key rest acc1 (fun hh => hc hh.1) hns] at hp2
    have hlook := parseLoop_lookup rest l (addLine acc1 l l) m hp2 l
    have hin : l ∈ lookupD (addLine acc1 l l) l := by
      rw [lookupD_addLine]
      simp
    have h2 : l ∈ lookupD m l := by
      rw [hlook]
      exact List.mem_append_left _ hin
    have h1 : hasKey m l = true :=
      hasKey_of_lookupD_ne m l (List.ne_nil_of_mem h2)
    have h3 : l ∈ joinBlocks m := by
      have hm : (l, lookupD m l) ∈ m := mem_of_hasKey m l h1
      have : l ∈ (List.map Prod.snd m).flatten :=
        List.mem_flatten.mpr ⟨lookupD m l, List.mem_map.mpr ⟨_, hm, rfl⟩, h2⟩
      exact this
    refine ⟨h1, h2, h3, ?_⟩
    unfold writeLines
    exact List.mem_cons_of_mem _ (List.mem_append_right _ (List.mem_cons_of_mem _ h3))

theorem c9_witness :
    hasKey [("pkg==1.0\n", ["pkg==1.0\n"]), ("\n", ["\n"])] "\n" = true
    ∧ "\n" ∈ lookupD [("pkg==1.0\n", ["pkg==1.0\n"]), ("\n", ["\n"])] "\n"
    ∧ "\n" ∈ joinBlocks [("pkg==1.0\n", ["pkg==1.0\n"]), ("\n", ["\n"])]
    ∧ "\n" ∈ writeLines [["base.txt"]] [("pkg==1.0\n", ["pkg==1.0\n"]), ("\n", ["\n"])] :=
  c9_blank_comment_entries ["pkg==1.0\n"] "\n" [] _ [["base.txt"]] "pkg==1.0\n"
    (by decide) (by decide) (by decide) (by decide) (by decide) rfl

/-- C10: parse keeps one entry per raw identifier line (keys are distinct);
an entry's block is exactly the lines the scan attributes to its key (all
occurrences concatenated), it is nonempty, starts with the key, and contains
the identifier line once per identifier occurrence. -/
theorem c10_duplicate_ids (f : List String) (m : Entries) (k : String)
    (b : List String)
    (hne : ∀ l ∈ f, l ≠ "") (hp : parse_requirements f = .ok m)
    (hpm : (k, b) ∈ m) :
    (m.map Prod.fst).Nodup
    ∧ b = blockOf k f "" ∧ b ≠ [] ∧ b.head? = some k
    ∧ b.count k = idOcc k f "" := by
  have hwf := parse_wf f m hp hne
  obtain ⟨hk1, hk2, hk3, hk4, _, _⟩ := hwf.1 (k, b) hpm
  have hb : lookupD m k = b := lookupD_of_mem_nodup m k b hwf.2.1 hpm
  have hblock := parseLoop_lookup f "" [] m hp k
  have hbeq : b = blockOf k f "" := by
    rw [← hb, hblock]
    simp [lookupD]
  refine ⟨hwf.2.1, hbeq, hk3, hk4, ?_⟩
  rw [hbeq]
  exact count_blockOf k hk2 f ""

theorem c10_witness :
    (([("a==1\n", ["a==1\n", "    h1\n", "a==1\n", "    h2\n"]),
       ("b==2\n", ["b==2\n"])] : Entries).map Prod.fst).Nodup
    ∧ ["a==1\n", "    h1\n", "a==1\n", "    h2\n"]
        = blockOf "a==1\n" ["a==1\n", "    h1\n", "b==2\n", "a==1\n", "    h2\n"] ""
    ∧ (["a==1\n", "    h1\n", "a==1\n", "    h2\n"] : List String) ≠ []
    ∧ (["a==1\n", "    h1\n", "a==1\n", "    h2\n"] : List String).head? = some "a==1\n"
    ∧ (["a==1\n", "    h1\n", "a==1\n", "    h2\n"] : List String).count "a==1\n"
        = idOcc "a==1\n" ["a==1\n", "    h1\n", "b==2\n", "a==1\n", "    h2\n"] "" :=
  c10_duplicate_ids ["a==1\n", "    h1\n", "b==2\n", "a==1\n", "    h2\n"]
    [("a==1\n", ["a==1\n", "    h1\n", "a==1\n", "    h2\n"]), ("b==2\n", ["b==2\n"])]
    "a==1\n" ["a==1\n", "    h1\n", "a==1\n", "    h2\n"]
    (by decide) rfl (by decide)

/-- C2 counterexample: the claim as stated is false.  On a five-file set that
deduplicates successfully, a second run also succeeds but its production,
development, and testing files differ byte for byte from the first run's
output: the first run's -r include line and separator blank line are parsed
as ordinary entries and re-emitted. -/
theorem c2_counterexample :
    (deduplicate_requirements exFiles).2 = none
    ∧ (deduplicate_requirements (deduplicate_requirements exFiles).1).2 = none
    ∧ (deduplicate_requirements (deduplicate_requirements exFiles).1).1.production
        ≠ (deduplicate_requirements exFiles).1.production
    ∧ (deduplicate_requirements (deduplicate_requirements exFiles).1).1.development
        ≠ (deduplicate_requirements exFiles).1.development
    ∧ (deduplicate_requirements (deduplicate_requirements exFiles).1).1.testing
        ≠ (deduplicate_requirements exFiles).1.testing := by
  decide

/-- C2 (amended: only the base and all files are byte-identical on a second
run).  After a successful run on real files (nonempty lines), running
deduplicate() again on its output succeeds, and reproduces the base and all
files byte for byte; by c2_counterexample the derived files are not
reproduced in general. -/
theorem c2_second_run (fs fs1 : ReqFiles)
    (hne1 : ∀ l ∈ fs.base, l ≠ "") (hne2 : ∀ l ∈ fs.production, l ≠ "")
    (hne3 : ∀ l ∈ fs.development, l ≠ "") (hne4 : ∀ l ∈ fs.testing, l ≠ "")
    (h : deduplicate_requirements fs = (fs1, none)) :
    (deduplicate_requirements fs1).2 = none
    ∧ (deduplicate_requirements fs1).1.base = fs1.base
    ∧ (deduplicate_requirements fs1).1.all = fs1.all := by
  obtain ⟨B, P, D, T, hB, hP, hD, hT⟩ := dedup_none_inv fs fs1 h
  have he := dedup_eq fs B P D T hB hP hD hT
  have hfs1 : fs1 =
      { base := writeLines [] B,
        production := writeLines [["base.txt"]] (filterNotIn P B),
        development := writeLines [["base.txt"]] (filterNotIn D B),
        testing := writeLines [["development.txt"]] (filterTesting T B D),
        all := writeLines [["development.txt"], ["production.txt"], ["testing.txt"]] [] } := by
    have h2 := h.symm.trans he
    injection h2 with h3 _
  have hwB := parse_wf fs.base B hB hne1
  have hwP := parse_wf fs.production P hP hne2
  have hwD := parse_wf fs.development D hD hne3
  have hwT := parse_wf fs.testing T hT hne4
  have hB2 : parse_requirements fs1.base = .ok B := by
    rw [hfs1]
    exact parse_writeLines_nil B hwB
  have hProdShape : fs1.production
      = headerLine :: "-r base.txt\n" :: "\n" :: joinBlocks (filterNotIn P B) := by
    rw [hfs1]
    rfl
  have hDevShape : fs1.development
      = headerLine :: "-r base.txt\n" :: "\n" :: joinBlocks (filterNotIn D B) := by
    rw [hfs1]
    rfl
  have hTestShape : fs1.testing
      = headerLine :: "-r development.txt\n" :: "\n" :: joinBlocks (filterTesting T B D) := by
    rw [hfs1]
    rfl
  have hsubP : ∀ l ∈ joinBlocks (filterNotIn P B), l ≠ "" := by
    refine joinBlocks_ne (filterNotIn P B) ?_
    intro p hp
    exact hwP.1 p ((mem_filterNotIn P B p).mp hp).1
  have hsubD : ∀ l ∈ joinBlocks (filterNotIn D B), l ≠ "" := by
    refine joinBlocks_ne (filterNotIn D B) ?_
    intro p hp
    exact hwD.1 p ((mem_filterNotIn D B p).mp hp).1
  have hsubT : ∀ l ∈ joinBlocks (filterTesting T B D), l ≠ "" := by
    refine joinBlocks_ne (filterTesting T B D) ?_
    intro p hp
    exact hwT.1 p ((mem_filterTesting T B D p).mp hp).1
  obtain ⟨P2, hP2⟩ := parse_after_header "-r base.txt\n" (by decide) (by decide)
    (by decide) (joinBlocks (filterNotIn P B)) hsubP
  obtain ⟨D2, hD2⟩ := parse_after_header "-r base.txt\n" (by decide) (by decide)
    (by decide) (joinBlocks (filterNotIn D B)) hsubD
  obtain ⟨T2, hT2⟩ := parse_after_header "-r development.txt\n" (by decide) (by decide)
    (by decide) (joinBlocks (filterTesting T B D)) hsubT
  have hP2f : parse_requirements fs1.production = .ok P2 := by
    rw [hProdShape]
    exact hP2
  have hD2f : parse_requirements fs1.development = .ok D2 := by
    rw [hDevShape]
    exact hD2
  have hT2f : parse_requirements fs1.testing = .ok T2 := by
    rw [hTestShape]
    exact hT2
  have he2 := dedup_eq fs1 B P2 D2 T2 hB2 hP2f hD2f hT2f
  refine ⟨by rw [he2], ?_, ?_⟩
  · rw [he2, hfs1]
  · rw [he2, hfs1]

theorem c2_witness :
    (deduplicate_requirements exOut).2 = none
    ∧ (deduplicate_requirements exOut).1.base = exOut.base
    ∧ (deduplicate_requirements exOut).1.all = exOut.all :=
  c2_second_run exFiles exOut (by decide) (by decide) (by decide) (by decide)
    (by decide)

end MakeRequirements
